import Mathlib

/-!
Verification of the CSV codec (`src/lib/utils/csv-utils.ts`) and the
activity-log service (`src/lib/services/activityLogService.ts`) of the
attendance-tracker repository.  Strings are embedded as lists of
characters; the JavaScript functions are translated operation by
operation.
-/

set_option maxHeartbeats 1000000

/-- Strings are modelled as lists of characters. -/
abbrev Str := List Char

/-- Conversion from a Lean string literal to the character-list model. -/
def chars (s : String) : Str := s.data

/-- The newline character, the separator used by `parseCSV`. -/
def nl : Char := Char.ofNat 10

/-- The double-quote character. -/
def dq : Char := Char.ofNat 34

/-- The backslash character. -/
def bs : Char := Char.ofNat 92

/-- Whitespace recognised by the JavaScript `trim` (ASCII subset). -/
def isWSChar (c : Char) : Bool :=
  c == Char.ofNat 32 || c == Char.ofNat 9 || c == nl || c == Char.ofNat 13 ||
  c == Char.ofNat 11 || c == Char.ofNat 12

/-- JavaScript `String.prototype.trim`: drop whitespace at both ends. -/
def trim (s : Str) : Str :=
  ((s.dropWhile isWSChar).reverse.dropWhile isWSChar).reverse

/-- JavaScript `String.prototype.split` with a one-character separator:
splitting the empty string yields one empty segment, and every separator
occurrence starts a new segment. -/
def splitOn (sep : Char) : Str → List Str
  | [] => [[]]
  | c :: rest =>
    if c = sep then [] :: splitOn sep rest
    else
      match splitOn sep rest with
      | [] => [[c]]
      | s :: ss => (c :: s) :: ss

/-- JavaScript `replace` of the global pattern matching two double quotes
by a single double quote (leftmost, non-overlapping). -/
def replaceDD : Str → Str
  | [] => []
  | [c] => [c]
  | c1 :: c2 :: rest =>
    if c1 = dq ∧ c2 = dq then dq :: replaceDD rest
    else c1 :: replaceDD (c2 :: rest)

/-- JavaScript `replace` of every double quote by two double quotes. -/
def doubleQuotes : Str → Str
  | [] => []
  | c :: rest => if c = dq then dq :: dq :: doubleQuotes rest else c :: doubleQuotes rest

/-- A parsed CSV row: field assignments `header value` in assignment
order, mirroring the JavaScript record object built by `parseCSV`. -/
abbrev Row := List (Str × Str)

/-- Errors thrown by `parseCSV` in `csv-utils.ts`. -/
inductive CSVError where
  | tooFewLines
  | missingHeaders (missing : List Str)
deriving DecidableEq

/-- The character-by-character loop of `parseCSV` over one data line
(`csv-utils.ts` lines 31-56).  Arguments mirror the JavaScript locals:
`prev` is the previously seen character (`lines[i][j-1]`), `fieldValue`
the accumulator, `inQuotes` the quote state, `currentField` the index of
the next header to assign, `row` the record built so far.  At the end of
the line the pending field is stored when a header position remains. -/
def parseLineAux (headers : List Str) : Str → Option Char → Str → Bool → Nat → Row → Row
  | [], _, fieldValue, _, currentField, row =>
    if h : currentField < headers.length then
      row ++ [(headers.get ⟨currentField, h⟩, replaceDD fieldValue)]
    else row
  | c :: rest, prev, fieldValue, inQuotes, currentField, row =>
    if c = dq ∧ prev ≠ some bs then
      parseLineAux headers rest (some c) fieldValue (!inQuotes) currentField row
    else if c = ',' ∧ inQuotes = false then
      if h : currentField < headers.length then
        parseLineAux headers rest (some c) [] inQuotes (currentField + 1)
          (row ++ [(headers.get ⟨currentField, h⟩, replaceDD fieldValue)])
      else parseLineAux headers rest (some c) fieldValue inQuotes currentField row
    else parseLineAux headers rest (some c) (fieldValue ++ [c]) inQuotes currentField row

/-- The data-row loop of `parseCSV`: blank lines (trimming to empty) are
skipped, every other line is scanned by `parseLineAux`. -/
def parseLines (headers : List Str) : List Str → List Row
  | [] => []
  | line :: rest =>
    if trim line = [] then parseLines headers rest
    else parseLineAux headers line none [] false 0 [] :: parseLines headers rest

/-- The header row computed by `parseCSV`: the first line, split on
commas, each name trimmed. -/
def parsedHeaders (content : Str) : List Str :=
  (splitOn ',' ((splitOn nl content).headD [])).map trim

/-- The required headers absent from the parsed header row, in the order
the caller listed them. -/
def missingHeadersOf (content : Str) (req : List Str) : List Str :=
  req.filter (fun h => !(decide (h ∈ parsedHeaders content)))

/-- `parseCSV` from `csv-utils.ts`: split on newlines, require at least
two lines, parse and trim the header line, fail when a required header is
absent, then parse the data rows. -/
def parseCSV (csvContent : Str) (requiredHeaders : List Str) : Except CSVError (List Row) :=
  let lines := splitOn nl csvContent
  if lines.length < 2 then Except.error CSVError.tooFewLines
  else
    let headers := parsedHeaders csvContent
    let missing := missingHeadersOf csvContent requiredHeaders
    if missing = [] then Except.ok (parseLines headers (lines.drop 1))
    else Except.error (CSVError.missingHeaders missing)

/-- Field lookup `item[header] ?? ''` on a row record. -/
def lookupField (r : Row) (h : Str) : Str :=
  match r.find? (fun p => decide (p.1 = h)) with
  | some p => p.2
  | none => []

/-- Quoting step of `createCSV`: a value containing a comma or a double
quote is wrapped in double quotes with inner double quotes doubled. -/
def escapeField (v : Str) : Str :=
  if (',' ∈ v) ∨ (dq ∈ v) then dq :: (doubleQuotes v ++ [dq]) else v

/-- JavaScript array join with a comma separator. -/
def joinComma : List Str → Str
  | [] => []
  | [v] => v
  | v :: vs => v ++ ',' :: joinComma vs

/-- One serialized data line of `createCSV` (before its trailing newline). -/
def serializeRow (headers : List Str) (r : Row) : Str :=
  joinComma (headers.map (fun h => escapeField (lookupField r h)))

/-- `createCSV` from `csv-utils.ts`: the header line followed by one line
per row, each line terminated by a newline. -/
def createCSV (data : List Row) (headers : List Str) : Str :=
  (joinComma headers ++ [nl]) ++ (data.map (fun r => serializeRow headers r ++ [nl])).flatten

/-- Digits as recognised by the regular-expression class of digits. -/
def isDigitChar (c : Char) : Bool := c.isDigit

/-- The separator class of the matriculation-number pattern: whitespace,
slash, backslash or hyphen. -/
def isSepChar (c : Char) : Bool := isWSChar c || c == '/' || c == bs || c == '-'

/-- Test of the canonical matriculation form `U` + four digits + `/` +
seven digits (the first regular expression in `formatMatNo`). -/
def isCanonicalMat (s : Str) : Bool :=
  match s with
  | 'U' :: rest =>
    let d1 := rest.take 4
    let r2 := rest.drop 4
    (d1.length == 4 && d1.all isDigitChar) &&
      (match r2 with
       | c :: d2 => c == '/' && (d2.length == 7 && d2.all isDigitChar)
       | [] => false)
  | _ => false

/-- The optional leading `U` of the coercion pattern of `formatMatNo`:
drop it when present.  A leading `U` is never a digit, so the greedy
regular-expression match is the only possible one. -/
def stripU (s : Str) : Str :=
  match s with
  | 'U' :: r => r
  | _ => s

/-- The optional separator of the coercion pattern: drop a leading
separator character when present. -/
def stripSep (r2 : Str) : Str :=
  match r2 with
  | c :: r => if isSepChar c then r else c :: r
  | [] => []

/-- The rest of the coercion pattern after the optional `U`: four digits,
an optional separator character, then exactly seven digits up to the end
of the string.  A separator is never a digit, so consuming it greedily is
again the only possible match. -/
def coerceMatBody (rest : Str) : Option Str :=
  let d4 := rest.take 4
  let r3 := stripSep (rest.drop 4)
  if d4.length == 4 && d4.all isDigitChar then
    if r3.length == 7 && r3.all isDigitChar then
      some ('U' :: (d4 ++ '/' :: r3))
    else none
  else none

/-- Matching and rewriting by the second regular expression of
`formatMatNo` (optional `U`, four digits, optional separator, seven
digits, anchored at both ends): `some` of the canonical rewrite on a
match, `none` otherwise. -/
def coerceMat (s : Str) : Option Str :=
  coerceMatBody (stripU s)

/-- `formatMatNo` from `csv-utils.ts`: trim, return a canonical input
unchanged, otherwise apply the anchored rewrite (which returns the input
unchanged when the pattern does not match). -/
def formatMatNo (matNo : Str) : Str :=
  let t := trim matNo
  if isCanonicalMat t then t
  else
    match coerceMat t with
    | some r => r
    | none => t

/-- Test of one string beginning with another (character-wise). -/
def beginsWith : Str → Str → Bool
  | [], _ => true
  | _ :: _, [] => false
  | c :: cs, d :: ds => c == d && beginsWith cs ds

/-- Substring test: `hasSubstr needle hay` holds when `needle` occurs
contiguously inside `hay`. -/
def hasSubstr (needle : Str) : Str → Bool
  | [] => needle.isEmpty
  | c :: rest => beginsWith needle (c :: rest) || hasSubstr needle rest

/-- Lower-casing of a string, for case-insensitive matching. -/
def lowerStr (s : Str) : Str := s.map Char.toLower

/-- The SQL pattern `ILIKE` with a pattern of the shape percent, text,
percent: case-insensitive containment. -/
def ilikeContains (pat : Str) (s : Str) : Bool :=
  hasSubstr (lowerStr pat) (lowerStr s)

/-- The caller-supplied part of an activity-log entry (the `ActivityLog`
interface without `id` and `created_at`).  Optional interface fields are
`Option`; a `none` classification models an omitted field. -/
structure ActivityInput where
  user_id : Option Str := none
  user_email : Option Str := none
  action_type : Option Str := none
  action : Option Str := none
  entity_type : Option Str := none
  entity_id : Option Str := none
  description : Str := []
deriving DecidableEq

/-- A stored activity-log row.  `created_at` is an abstract timestamp
(the stored ISO-8601 strings compare exactly like these numbers); `id`
is the serial identifier assigned by the database. -/
structure ActivityLog where
  id : Nat := 0
  user_id : Option Str := none
  user_email : Option Str := none
  action_type : Str := []
  action : Option Str := none
  entity_type : Str := []
  entity_id : Option Str := none
  description : Str := []
  created_at : Nat := 0
deriving DecidableEq

/-- JavaScript falsiness of an optional string: absent or empty. -/
def isBlank : Option Str → Bool
  | none => true
  | some s => s.isEmpty

/-- The classification defaults applied inside `logActivity` before the
insert: a falsy `entity_type` becomes `system`, a falsy `action_type`
becomes `action`. -/
def normalizeActivity (a : ActivityInput) : ActivityInput :=
  let a1 := if isBlank a.entity_type then { a with entity_type := some (chars "system") } else a
  if isBlank a1.action_type then { a1 with action_type := some (chars "action") } else a1

/-- The next serial identifier assigned by the database. -/
def nextId (s : List ActivityLog) : Nat :=
  s.foldr (fun e m => max e.id m) 0 + 1

/-- The row stored by a successful insert: the normalized input plus the
database-assigned identifier and creation timestamp. -/
def insertedEntry (id now : Nat) (a : ActivityInput) : ActivityLog :=
  { id := id
    user_id := a.user_id
    user_email := a.user_email
    action_type := a.action_type.getD []
    action := a.action
    entity_type := a.entity_type.getD []
    entity_id := a.entity_id
    description := a.description
    created_at := now }

/-- Outcome of the underlying persistence write: success, an error value
returned by the database client, or a thrown exception. -/
inductive WriteOutcome where
  | ok
  | dbError (msg : Str)
  | threw (msg : Str)

/-- `logActivity` from `activityLogService.ts`.  The whole body runs in a
try block: classification defaults are applied, the insert is attempted,
a returned database error is only reported on the console, and any
thrown exception is swallowed by the catch block.  The second component
is the outcome visible to the caller: `Except.error` would model an
exception escaping to the caller. -/
def logActivity (a : ActivityInput) (outcome : WriteOutcome) (now : Nat)
    (s : List ActivityLog) : List ActivityLog × Except Str Unit :=
  let a2 := normalizeActivity a
  match outcome with
  | WriteOutcome.ok => (s ++ [insertedEntry (nextId s) now a2], Except.ok ())
  | WriteOutcome.dbError _ => (s, Except.ok ())
  | WriteOutcome.threw _ => (s, Except.ok ())

/-- The argument object of `getActivityLogs`, with its source defaults. -/
structure GetActivityLogsArgs where
  page : Nat := 1
  pageSize : Nat := 50
  actionType : Option Str := none
  entityType : Option Str := none
  fromDate : Option Nat := none
  toDate : Option Nat := none
  search : Option Str := none
  includeTestData : Bool := false

/-- The placeholder entity identifiers excluded by `getActivityLogs`. -/
def testEntityIds : List Str :=
  [chars "test", chars "demo", chars "sample", chars "0", chars "999999"]

/-- The condition `not (user_email ilike percent-test-percent)` of the
query: under SQL three-valued logic an absent email makes the negated
condition unknown, so the row is filtered out. -/
def emailCleanOfTest (o : Option Str) : Bool :=
  match o with
  | some em => !(ilikeContains (chars "test") em)
  | none => false

/-- The condition `not (entity_id in placeholder-list)` of the query:
under SQL three-valued logic an absent identifier makes the negated
condition unknown, so the row is filtered out. -/
def entityIdClean (o : Option Str) : Bool :=
  match o with
  | some i => !(decide (i ∈ testEntityIds))
  | none => false

/-- The conjunction of the filters that `getActivityLogs` builds on the
query.  Each optional filter is skipped when its argument is absent. -/
def passesFilters (args : GetActivityLogsArgs) (e : ActivityLog) : Bool :=
  (match args.actionType with
   | some t => e.action_type == t
   | none => true) &&
  (match args.entityType with
   | some t => e.entity_type == t
   | none => true) &&
  (match args.fromDate with
   | some d => decide (d ≤ e.created_at)
   | none => true) &&
  (match args.toDate with
   | some d => decide (e.created_at ≤ d)
   | none => true) &&
  (match args.search with
   | some s =>
     ilikeContains s e.description ||
       (match e.user_email with
        | some em => ilikeContains s em
        | none => false)
   | none => true) &&
  (args.includeTestData ||
    (!(ilikeContains (chars "test") e.description) &&
     !(ilikeContains (chars "demo") e.description) &&
     !(ilikeContains (chars "sample") e.description) &&
     emailCleanOfTest e.user_email &&
     !(ilikeContains (chars "test") e.action_type) &&
     entityIdClean e.entity_id))

/-- Insertion step of `orderByCreatedDesc`: place an element below every
strictly newer element. -/
def insertByCreatedDesc (e : ActivityLog) : List ActivityLog → List ActivityLog
  | [] => [e]
  | x :: xs =>
    if e.created_at < x.created_at then x :: insertByCreatedDesc e xs
    else e :: x :: xs

/-- The order step of `getActivityLogs`.  The source requests only
`order by created_at descending` with no secondary key, so the database
leaves the relative order of equal-timestamp rows unspecified; to keep
the query a function, this model returns one concrete arrangement sorted
weakly descending by creation timestamp (an insertion sort of the stored
sequence).  No theorem below depends on which arrangement among
equal-timestamp rows is produced: only membership in the result is
used. -/
def orderByCreatedDesc : List ActivityLog → List ActivityLog
  | [] => []
  | x :: xs => insertByCreatedDesc x (orderByCreatedDesc xs)

/-- Result of `getActivityLogs`: a page of rows plus the exact count of
rows matching all filters. -/
structure QueryResult where
  logs : List ActivityLog
  count : Nat
deriving DecidableEq

/-- `getActivityLogs` from `activityLogService.ts`: apply the filters,
order by descending creation time, and return the page window
`range(from, from + pageSize - 1)` together with the exact match count. -/
def getActivityLogs (args : GetActivityLogsArgs) (store : List ActivityLog) : QueryResult :=
  let fromIdx := (args.page - 1) * args.pageSize
  let filtered := store.filter (passesFilters args)
  let sorted := orderByCreatedDesc filtered
  { logs := (sorted.drop fromIdx).take args.pageSize, count := filtered.length }

/-- `deleteOldActivityLogs` from `activityLogService.ts`: delete the rows
with `created_at` strictly below `now` minus the age bound (timestamps
counted in days) and return how many rows the delete touched. -/
def deleteOldActivityLogs (olderThanDays : Nat) (now : Nat)
    (s : List ActivityLog) : List ActivityLog × Nat :=
  let cutoff := now - olderThanDays
  (s.filter (fun e => !(decide (e.created_at < cutoff))),
   (s.filter (fun e => decide (e.created_at < cutoff))).length)

/-- `purgeAllFakeActivities` from `activityLogService.ts`: the body only
writes a console message and returns `0`; no delete statement is issued,
so the store is returned untouched. -/
def purgeAllFakeActivities (s : List ActivityLog) : List ActivityLog × Nat :=
  (s, 0)

/-- A well-formed real entry, used by the concrete query examples:
nothing in it matches the synthetic-data filters. -/
def benignLog (i t : Nat) : ActivityLog :=
  { id := i
    user_email := some (chars "user@school.edu")
    action_type := chars "create"
    entity_type := chars "attendance"
    entity_id := some (chars "7")
    description := chars "attendance recorded"
    created_at := t }

/-- An entry whose actor email contains the marker `demo` while every
other field is clean. -/
def demoEmailLog : ActivityLog :=
  { id := 1
    user_email := some (chars "demo@school.edu")
    action_type := chars "create"
    entity_type := chars "attendance"
    entity_id := some (chars "7")
    description := chars "attendance recorded"
    created_at := 1 }

/-- An entry with description `test run` and clean remaining fields. -/
def testRunLog : ActivityLog :=
  { id := 1
    user_email := some (chars "user@school.edu")
    action_type := chars "create"
    entity_type := chars "attendance"
    entity_id := some (chars "7")
    description := chars "test run"
    created_at := 1 }

/-- A field value that serializes and re-parses cleanly: no double quote,
no newline, and not ending in a backslash when it contains a comma (a
quoted field whose closing quote follows a backslash is not recognised as
a closing quote by the scanner). -/
def goodField (v : Str) : Prop :=
  dq ∉ v ∧ nl ∉ v ∧ (',' ∈ v → v.getLast? ≠ some bs)

instance (v : Str) : Decidable (goodField v) := by
  unfold goodField
  infer_instance

/-- Declarative reading of the coercion pattern of `formatMatNo`: the
string is an optional `U`, four digits `d4`, an optional separator
character, and seven digits `d7`. -/
def MatPattern (s d4 d7 : Str) : Prop :=
  (s = d4 ++ d7 ∨ s = 'U' :: (d4 ++ d7) ∨
    (∃ c, isSepChar c = true ∧ s = d4 ++ c :: d7) ∨
    (∃ c, isSepChar c = true ∧ s = 'U' :: (d4 ++ c :: d7))) ∧
  d4.length = 4 ∧ (∀ c ∈ d4, isDigitChar c = true) ∧
  d7.length = 7 ∧ (∀ c ∈ d7, isDigitChar c = true)

/-- The last character seen after scanning `v`, starting from `p`:
the state of the `prev` argument of `parseLineAux` after consuming `v`. -/
def prevAfter : Str → Option Char → Option Char
  | [], p => p
  | c :: v, _ => prevAfter v (some c)

/-!
Helper lemmas.
-/

theorem length_filter_not_add {α : Type} (p : α → Bool) (l : List α) :
    (l.filter (fun a => !(p a))).length + (l.filter p).length = l.length := by
  induction l with
  | nil => rfl
  | cons x xs ih =>
    by_cases h : p x = true <;> simp [List.filter_cons, h] <;> omega

/-!
Claim theorems for the activity-log store (easy cases).
-/

/-- C2: for every entry and every outcome of the underlying persistence
write, `logActivity` returns normally: a database error or a thrown
exception is swallowed inside the function, and the value handed back to
the caller is always `Except.ok ()`, revealing nothing about the
failure. -/
theorem logActivity_returns_normally (a : ActivityInput) (outcome : WriteOutcome)
    (now : Nat) (s : List ActivityLog) :
    (logActivity a outcome now s).2 = Except.ok () := by
  cases outcome <;> rfl

/-- C10: `purgeAllFakeActivities` returns `0` and leaves the persisted
activity-log sequence completely unchanged, whatever the store holds. -/
theorem purgeAllFakeActivities_noop (s : List ActivityLog) :
    purgeAllFakeActivities s = (s, 0) := rfl

/-- C5: `deleteOldActivityLogs` keeps exactly the entries whose creation
timestamp is at least `now` minus the age bound (deleting exactly the
strictly older ones), returns the count of deleted entries, removes
nothing when re-run immediately, and on a concrete store deletes a
100-day-old entry (counting it) while keeping a 10-day-old one. -/
theorem deleteOldActivityLogs_spec (olderThanDays now : Nat) (s : List ActivityLog) :
    (∀ e, e ∈ (deleteOldActivityLogs olderThanDays now s).1 ↔
        e ∈ s ∧ ¬(e.created_at < now - olderThanDays)) ∧
    (deleteOldActivityLogs olderThanDays now s).1.length
        + (deleteOldActivityLogs olderThanDays now s).2 = s.length ∧
    deleteOldActivityLogs olderThanDays now (deleteOldActivityLogs olderThanDays now s).1
      = ((deleteOldActivityLogs olderThanDays now s).1, 0) ∧
    deleteOldActivityLogs 90 1000 [benignLog 1 900, benignLog 2 990]
      = ([benignLog 2 990], 1) := by
  refine ⟨?_, ?_, ?_, by decide⟩
  · intro e
    simp [deleteOldActivityLogs, List.mem_filter]
  · exact length_filter_not_add _ s
  · have hnil : ((deleteOldActivityLogs olderThanDays now s).1.filter
        (fun e => decide (e.created_at < now - olderThanDays))) = [] := by
      rw [List.filter_eq_nil_iff]
      intro e he
      have := (List.mem_filter.mp he).2
      simp at this
      simp [this]
    have hkeep : ((deleteOldActivityLogs olderThanDays now s).1.filter
        (fun e => !(decide (e.created_at < now - olderThanDays))))
        = (deleteOldActivityLogs olderThanDays now s).1 := by
      rw [List.filter_eq_self]
      intro e he
      have := (List.mem_filter.mp he).2
      simpa using this
    simp only [deleteOldActivityLogs] at hnil hkeep ⊢
    rw [hnil, hkeep]
    rfl

/-- C9: `logActivity` never rejects an entry: it always returns normally,
and the stored row substitutes `system` for an omitted or empty entity
kind and `action` for an omitted or empty action kind. -/
theorem logActivity_defaults (a : ActivityInput) (outcome : WriteOutcome)
    (now : Nat) (s : List ActivityLog) :
    (logActivity a outcome now s).2 = Except.ok () ∧
    ∃ e, (logActivity a WriteOutcome.ok now s).1 = s ++ [e] ∧
      (isBlank a.entity_type = true → e.entity_type = chars "system") ∧
      (isBlank a.action_type = true → e.action_type = chars "action") := by
  refine ⟨by cases outcome <;> rfl,
    insertedEntry (nextId s) now (normalizeActivity a), rfl, ?_, ?_⟩
  · intro h
    simp only [insertedEntry, normalizeActivity, h, if_true]
    split <;> simp
  · intro h
    simp only [insertedEntry, normalizeActivity]
    split
    · simp [h]
    · simp [h]

/-- Closed instance of C9: an input with both classification fields
omitted is stored with entity kind `system` and action kind `action`. -/
theorem logActivity_defaults_witness :
    ∃ e, (logActivity { description := chars "login" } WriteOutcome.ok 5 []).1 = [] ++ [e] ∧
      e.entity_type = chars "system" ∧ e.action_type = chars "action" := by
  obtain ⟨-, e, he, h1, h2⟩ :=
    logActivity_defaults { description := chars "login" } WriteOutcome.ok 5 []
  exact ⟨e, he, h1 (by decide), h2 (by decide)⟩

theorem mem_insertByCreatedDesc {e x : ActivityLog} {l : List ActivityLog} :
    x ∈ insertByCreatedDesc e l ↔ x = e ∨ x ∈ l := by
  induction l with
  | nil => simp [insertByCreatedDesc]
  | cons y ys ih =>
    simp only [insertByCreatedDesc]
    split
    · simp only [List.mem_cons, ih]
      tauto
    · simp only [List.mem_cons]

theorem mem_orderByCreatedDesc {x : ActivityLog} {l : List ActivityLog} :
    x ∈ orderByCreatedDesc l ↔ x ∈ l := by
  induction l with
  | nil => simp [orderByCreatedDesc]
  | cons y ys ih => simp [orderByCreatedDesc, mem_insertByCreatedDesc, ih]

theorem emailCleanOfTest_eq_true {o : Option Str} (h : emailCleanOfTest o = true) :
    ∃ em, o = some em ∧ ilikeContains (chars "test") em = false := by
  cases o with
  | none => simp [emailCleanOfTest] at h
  | some em => exact ⟨em, rfl, by simpa [emailCleanOfTest] using h⟩

theorem entityIdClean_eq_true {o : Option Str} (h : entityIdClean o = true) :
    ∃ i, o = some i ∧ i ∉ testEntityIds := by
  cases o with
  | none => simp [entityIdClean] at h
  | some i => exact ⟨i, rfl, by simpa [entityIdClean] using h⟩

/-- C4 (amended): with `includeTestData` false, every returned entry has
a description free of the markers test/demo/sample, an actor email that
is present and free of test, an action kind free of test, and an entity
identifier that is present and outside the placeholder set; with
`includeTestData` true the entry with description `test run` is
returned. -/
theorem getActivityLogs_test_filter :
    (∀ (args : GetActivityLogsArgs) (store : List ActivityLog) (e : ActivityLog),
        args.includeTestData = false → e ∈ (getActivityLogs args store).logs →
        ilikeContains (chars "test") e.description = false ∧
        ilikeContains (chars "demo") e.description = false ∧
        ilikeContains (chars "sample") e.description = false ∧
        (∃ em, e.user_email = some em ∧ ilikeContains (chars "test") em = false) ∧
        ilikeContains (chars "test") e.action_type = false ∧
        (∃ i, e.entity_id = some i ∧ i ∉ testEntityIds)) ∧
    (getActivityLogs { includeTestData := true } [testRunLog]).logs = [testRunLog] ∧
    (getActivityLogs {} [testRunLog]).logs = [] := by
  refine ⟨?_, by decide, by decide⟩
  intro args store e hflag he
  have hlogs : (getActivityLogs args store).logs
      = ((orderByCreatedDesc (store.filter (passesFilters args))).drop
          ((args.page - 1) * args.pageSize)).take args.pageSize := rfl
  rw [hlogs] at he
  have he2 : e ∈ orderByCreatedDesc (store.filter (passesFilters args)) :=
    ((List.take_sublist _ _).trans (List.drop_sublist _ _)).subset he
  have hp : passesFilters args e = true :=
    (List.mem_filter.mp (mem_orderByCreatedDesc.mp he2)).2
  simp only [passesFilters, hflag, Bool.false_or, Bool.and_eq_true] at hp
  obtain ⟨-, ⟨⟨⟨⟨h1, h2⟩, h3⟩, h4⟩, h5⟩, h6⟩ := hp
  exact ⟨by simpa using h1, by simpa using h2, by simpa using h3,
    emailCleanOfTest_eq_true h4, by simpa using h5, entityIdClean_eq_true h6⟩

/-- Closed instance of the C4 theorem at a clean entry. -/
theorem getActivityLogs_test_filter_witness :
    ilikeContains (chars "test") (benignLog 1 1).description = false ∧
    ilikeContains (chars "demo") (benignLog 1 1).description = false ∧
    ilikeContains (chars "sample") (benignLog 1 1).description = false ∧
    (∃ em, (benignLog 1 1).user_email = some em ∧
      ilikeContains (chars "test") em = false) ∧
    ilikeContains (chars "test") (benignLog 1 1).action_type = false ∧
    (∃ i, (benignLog 1 1).entity_id = some i ∧ i ∉ testEntityIds) :=
  getActivityLogs_test_filter.1 {} [benignLog 1 1] (benignLog 1 1) rfl (by decide)

/-- Counterexample for C4 as stated: an entry whose actor email contains
the marker `demo` is still returned when `includeTestData` is false — the
source only screens the email for `test`. -/
theorem getActivityLogs_demo_email_counterexample :
    (getActivityLogs {} [demoEmailLog]).logs = [demoEmailLog] ∧
    ({} : GetActivityLogsArgs).includeTestData = false ∧
    demoEmailLog.user_email = some (chars "demo@school.edu") ∧
    ilikeContains (chars "demo") (chars "demo@school.edu") = true := by decide

theorem sep_not_digit {c : Char} (h : isSepChar c = true) : isDigitChar c = false := by
  simp only [isSepChar, isWSChar, Bool.or_eq_true, beq_iff_eq] at h
  rcases h with ((((((((h | h) | h) | h) | h) | h) | h) | h) | h) <;> subst h <;> decide

theorem digit_not_sep {c : Char} (h : isDigitChar c = true) : isSepChar c = false := by
  cases hs : isSepChar c
  · rfl
  · simp [sep_not_digit hs] at h

theorem digit_ne_U {c : Char} (h : isDigitChar c = true) : c ≠ 'U' := by
  intro hc
  subst hc
  exact absurd h (by decide)

theorem stripU_cons_of_ne {a : Char} {l : Str} (h : a ≠ 'U') : stripU (a :: l) = a :: l := by
  unfold stripU
  split
  · rename_i r heq
    injection heq with h1 h2
    exact absurd h1 h
  · rfl

theorem isCanonicalMat_cons_ne {a : Char} {l : Str} (h : a ≠ 'U') :
    isCanonicalMat (a :: l) = false := by
  unfold isCanonicalMat
  split
  · rename_i r heq
    injection heq with h1 h2
    exact absurd h1 h
  · rfl

theorem stripSep_sep {c : Char} {r : Str} (h : isSepChar c = true) :
    stripSep (c :: r) = r := by
  simp [stripSep, h]

theorem stripSep_not {c : Char} {r : Str} (h : isSepChar c = false) :
    stripSep (c :: r) = c :: r := by
  simp [stripSep, h]

theorem coerceMatBody_parts (d4 d7 sep : Str)
    (hl4 : d4.length = 4) (hd4 : ∀ c ∈ d4, isDigitChar c = true)
    (hl7 : d7.length = 7) (hd7 : ∀ c ∈ d7, isDigitChar c = true)
    (hsep : sep = [] ∨ ∃ c, isSepChar c = true ∧ sep = [c]) :
    coerceMatBody (d4 ++ (sep ++ d7)) = some ('U' :: (d4 ++ '/' :: d7)) := by
  unfold coerceMatBody
  rw [List.take_left' hl4, List.drop_left' hl4]
  have hstr : stripSep (sep ++ d7) = d7 := by
    rcases hsep with rfl | ⟨c, hc, rfl⟩
    · rw [List.nil_append]
      cases d7 with
      | nil => rfl
      | cons b d72 =>
        have hb : isDigitChar b = true := hd7 b (List.mem_cons_self _ _)
        exact stripSep_not (digit_not_sep hb)
    · rw [List.singleton_append]
      exact stripSep_sep hc
  rw [hstr]
  rw [if_pos (by simp [hl4, List.all_eq_true]; exact hd4)]
  rw [if_pos (by simp [hl7, List.all_eq_true]; exact hd7)]

theorem coerceMat_of_pattern {s d4 d7 : Str} (hp : MatPattern s d4 d7) :
    coerceMat s = some ('U' :: (d4 ++ '/' :: d7)) := by
  obtain ⟨hshape, hl4, hd4, hl7, hd7⟩ := hp
  have hstrip : ∀ (tail : Str), stripU (d4 ++ tail) = d4 ++ tail := by
    intro tail
    cases hd : d4 with
    | nil => rw [hd] at hl4; simp at hl4
    | cons a d42 =>
      have ha : isDigitChar a = true := hd4 a (by rw [hd]; exact List.mem_cons_self _ _)
      rw [List.cons_append]
      exact stripU_cons_of_ne (digit_ne_U ha)
  rcases hshape with rfl | rfl | ⟨c, hc, rfl⟩ | ⟨c, hc, rfl⟩
  · rw [coerceMat, hstrip d7]
    have := coerceMatBody_parts d4 d7 [] hl4 hd4 hl7 hd7 (Or.inl rfl)
    simpa using this
  · rw [coerceMat, show stripU ('U' :: (d4 ++ d7)) = d4 ++ d7 from rfl]
    have := coerceMatBody_parts d4 d7 [] hl4 hd4 hl7 hd7 (Or.inl rfl)
    simpa using this
  · rw [coerceMat, hstrip (c :: d7)]
    have := coerceMatBody_parts d4 d7 [c] hl4 hd4 hl7 hd7 (Or.inr ⟨c, hc, rfl⟩)
    simpa using this
  · rw [coerceMat, show stripU ('U' :: (d4 ++ c :: d7)) = d4 ++ c :: d7 from rfl]
    have := coerceMatBody_parts d4 d7 [c] hl4 hd4 hl7 hd7 (Or.inr ⟨c, hc, rfl⟩)
    simpa using this

theorem coerce_of_canonical {t : Str} (h : isCanonicalMat t = true) :
    coerceMat t = some t := by
  cases t with
  | nil => exact absurd h (by decide)
  | cons a rest =>
    by_cases ha : a = 'U'
    · subst ha
      simp only [isCanonicalMat, Bool.and_eq_true] at h
      obtain ⟨⟨hlen, hall⟩, hm⟩ := h
      cases hdrop : rest.drop 4 with
      | nil => rw [hdrop] at hm; exact absurd hm (by decide)
      | cons c d2 =>
        rw [hdrop] at hm
        rw [Bool.and_eq_true, Bool.and_eq_true] at hm
        obtain ⟨hc, hl2, ha2⟩ := hm
        have hc2 : c = '/' := by simpa using hc
        subst hc2
        show coerceMatBody rest = some ('U' :: rest)
        unfold coerceMatBody
        rw [hdrop, stripSep_sep (by decide)]
        rw [if_pos (by rw [Bool.and_eq_true]; exact ⟨hlen, hall⟩)]
        rw [if_pos (by rw [Bool.and_eq_true]; exact ⟨hl2, ha2⟩)]
        have hrec : rest = rest.take 4 ++ '/' :: d2 := by
          conv_lhs => rw [← List.take_append_drop 4 rest]
          rw [hdrop]
        rw [← hrec]
    · rw [isCanonicalMat_cons_ne ha] at h
      exact absurd h (by simp)

theorem coerceMatBody_inv {rest r : Str} (h : coerceMatBody rest = some r) :
    ∃ d4 sep d7, rest = d4 ++ (sep ++ d7) ∧
      (sep = [] ∨ ∃ c, isSepChar c = true ∧ sep = [c]) ∧
      d4.length = 4 ∧ (∀ c ∈ d4, isDigitChar c = true) ∧
      d7.length = 7 ∧ (∀ c ∈ d7, isDigitChar c = true) ∧
      r = 'U' :: (d4 ++ '/' :: d7) := by
  unfold coerceMatBody at h
  by_cases h1 : ((rest.take 4).length == 4 && (rest.take 4).all isDigitChar) = true
  · rw [if_pos h1] at h
    rw [Bool.and_eq_true] at h1
    obtain ⟨hl4, hall4⟩ := h1
    have hl4n : (rest.take 4).length = 4 := by simpa using hl4
    have hd4 : ∀ c ∈ rest.take 4, isDigitChar c = true := by
      intro c hc
      exact List.all_eq_true.mp hall4 c hc
    cases hdrop : rest.drop 4 with
    | nil =>
      rw [hdrop] at h
      rw [show stripSep [] = [] from rfl] at h
      rw [if_neg (by decide)] at h
      exact Option.noConfusion h
    | cons c rr =>
      rw [hdrop] at h
      have hrest : rest = rest.take 4 ++ (c :: rr) := by
        conv_lhs => rw [← List.take_append_drop 4 rest]
        rw [hdrop]
      by_cases hsc : isSepChar c = true
      · rw [stripSep_sep hsc] at h
        by_cases h2 : ((rr.length == 7) && rr.all isDigitChar) = true
        · rw [if_pos h2] at h
          rw [Bool.and_eq_true] at h2
          refine ⟨rest.take 4, [c], rr, by simpa using hrest, Or.inr ⟨c, hsc, rfl⟩,
            hl4n, hd4, by simpa using h2.1,
            fun x hx => List.all_eq_true.mp h2.2 x hx, ?_⟩
          exact (Option.some.inj h).symm
        · rw [if_neg h2] at h
          exact Option.noConfusion h
      · rw [stripSep_not (by simpa using hsc)] at h
        by_cases h2 : (((c :: rr).length == 7) && (c :: rr).all isDigitChar) = true
        · rw [if_pos h2] at h
          rw [Bool.and_eq_true] at h2
          refine ⟨rest.take 4, [], c :: rr, by simpa using hrest, Or.inl rfl,
            hl4n, hd4, by simpa using h2.1,
            fun x hx => List.all_eq_true.mp h2.2 x hx, ?_⟩
          exact (Option.some.inj h).symm
        · rw [if_neg h2] at h
          exact Option.noConfusion h
  · rw [if_neg h1] at h
    exact Option.noConfusion h

theorem matPattern_of_coerce {s r : Str} (h : coerceMat s = some r) :
    ∃ d4 d7, MatPattern s d4 d7 ∧ r = 'U' :: (d4 ++ '/' :: d7) := by
  unfold coerceMat at h
  cases s with
  | nil =>
    rw [show stripU [] = [] from rfl] at h
    rw [show coerceMatBody [] = none from rfl] at h
    exact Option.noConfusion h
  | cons a tail =>
    by_cases ha : a = 'U'
    · subst ha
      rw [show stripU ('U' :: tail) = tail from rfl] at h
      obtain ⟨d4, sep, d7, hrest, hsep, hl4, hd4, hl7, hd7, hr⟩ := coerceMatBody_inv h
      refine ⟨d4, d7, ⟨?_, hl4, hd4, hl7, hd7⟩, hr⟩
      rcases hsep with rfl | ⟨c, hcsep, rfl⟩
      · exact Or.inr (Or.inl (by rw [hrest]; simp))
      · exact Or.inr (Or.inr (Or.inr ⟨c, hcsep, by rw [hrest]; simp⟩))
    · rw [stripU_cons_of_ne ha] at h
      obtain ⟨d4, sep, d7, hrest, hsep, hl4, hd4, hl7, hd7, hr⟩ := coerceMatBody_inv h
      refine ⟨d4, d7, ⟨?_, hl4, hd4, hl7, hd7⟩, hr⟩
      rcases hsep with rfl | ⟨c, hcsep, rfl⟩
      · exact Or.inl (by rw [hrest]; simp)
      · exact Or.inr (Or.inr (Or.inl ⟨c, hcsep, by rw [hrest]; simp⟩))

/-- C6: `formatMatNo` trims its input; a trimmed input already in the
canonical form `U` + four digits + slash + seven digits is returned
unchanged; a trimmed input matching optional `U`, four digits, optional
separator, seven digits is rewritten to the canonical form; any other
input is returned trimmed but otherwise unchanged, with no error. -/
theorem formatMatNo_spec :
    (∀ s : Str, isCanonicalMat (trim s) = true → formatMatNo s = trim s) ∧
    (∀ s d4 d7 : Str, MatPattern (trim s) d4 d7 →
        formatMatNo s = 'U' :: (d4 ++ '/' :: d7)) ∧
    (∀ s : Str, (∀ d4 d7, ¬ MatPattern (trim s) d4 d7) → formatMatNo s = trim s) := by
  refine ⟨?_, ?_, ?_⟩
  · intro s h
    simp [formatMatNo, h]
  · intro s d4 d7 hp
    have hco := coerceMat_of_pattern hp
    by_cases hc : isCanonicalMat (trim s) = true
    · have hcan := coerce_of_canonical hc
      rw [hcan] at hco
      have heq := Option.some.inj hco
      rw [← heq]
      simp [formatMatNo, hc]
    · simp [formatMatNo, hc, hco]
  · intro s h
    cases hco : coerceMat (trim s) with
    | some r =>
      obtain ⟨d4, d7, hp, -⟩ := matPattern_of_coerce hco
      exact absurd hp (h d4 d7)
    | none =>
      by_cases hc : isCanonicalMat (trim s) = true
      · simp [formatMatNo, hc]
      · simp [formatMatNo, hc, hco]

/-- Closed instances of C6: the coercion example, the malformed example,
and the already-canonical example of the specification. -/
theorem formatMatNo_spec_witness :
    formatMatNo (chars "20205570099") = chars "U2020/5570099" ∧
    formatMatNo (chars "garbage") = chars "garbage" ∧
    formatMatNo (chars "U2020/5570099") = chars "U2020/5570099" := by
  refine ⟨(formatMatNo_spec.2.1 (chars "20205570099") (chars "2020") (chars "5570099")
      ⟨Or.inl (by decide), by decide, by decide, by decide, by decide⟩).trans (by decide),
    (formatMatNo_spec.2.2 (chars "garbage") ?_).trans (by decide),
    (formatMatNo_spec.1 (chars "U2020/5570099") (by decide)).trans (by decide)⟩
  intro d4 d7 hp
  have hco := coerceMat_of_pattern hp
  rw [show coerceMat (trim (chars "garbage")) = none from rfl] at hco
  exact Option.noConfusion hco

/-- C7: when the input has at least two lines and at least one required
header is absent from the parsed (comma-split, trimmed) header row,
`parseCSV` fails with an error naming exactly the absent required
headers, whatever the data rows hold. -/
theorem parseCSV_missing_headers (content : Str) (req : List Str)
    (h2 : 2 ≤ (splitOn nl content).length)
    (hm : missingHeadersOf content req ≠ []) :
    parseCSV content req
      = Except.error (CSVError.missingHeaders (missingHeadersOf content req)) := by
  unfold parseCSV
  rw [if_neg (by omega), if_neg hm]

/-- Closed instance of C7: the specification example. -/
theorem parseCSV_missing_headers_witness :
    parseCSV (chars "Name\nAlice") [chars "Name", chars "Email"]
      = Except.error (CSVError.missingHeaders [chars "Email"]) := by
  have h := parseCSV_missing_headers (chars "Name\nAlice") [chars "Name", chars "Email"]
    (by decide) (by decide)
  rw [h]
  rw [show missingHeadersOf (chars "Name\nAlice") [chars "Name", chars "Email"]
    = [chars "Email"] from by decide]

theorem parseLineAux_keys (H : List Str) :
    ∀ (cs : Str) (prev : Option Char) (fv : Str) (iq : Bool) (k : Nat) (row : Row),
      row.map Prod.fst = H.take k →
      ∃ n, (parseLineAux H cs prev fv iq k row).map Prod.fst = H.take n := by
  intro cs
  induction cs with
  | nil =>
    intro prev fv iq k row hrow
    simp only [parseLineAux]
    split
    · rename_i hk
      refine ⟨k + 1, ?_⟩
      rw [List.map_append, hrow]
      simp only [List.map_cons, List.map_nil]
      simp [List.take_concat_get']
    · exact ⟨k, hrow⟩
  | cons c rest ih =>
    intro prev fv iq k row hrow
    simp only [parseLineAux]
    split
    · exact ih _ _ _ _ _ hrow
    · split
      · split
        · rename_i hk
          apply ih
          rw [List.map_append, hrow]
          simp only [List.map_cons, List.map_nil]
          simp [List.take_concat_get']
        · exact ih _ _ _ _ _ hrow
      · exact ih _ _ _ _ _ hrow

theorem parseLines_shape (H : List Str) :
    ∀ (ls : List Str) (r : Row), r ∈ parseLines H ls →
      ∃ line, r = parseLineAux H line none [] false 0 [] := by
  intro ls
  induction ls with
  | nil => intro r hr; simp [parseLines] at hr
  | cons line rest ih =>
    intro r hr
    simp only [parseLines] at hr
    split at hr
    · exact ih r hr
    · rcases List.mem_cons.mp hr with rfl | hr2
      · exact ⟨line, rfl⟩
      · exact ih r hr2

/-- C8: every row produced by `parseCSV` binds an initial segment of the
header list, so fields beyond the header length are discarded (no key
beyond the header list appears) and a short line leaves the unprovided
trailing headers absent from the row rather than bound to the empty
string; two concrete instances show a discarded extra field and an
absent key. -/
theorem parseCSV_row_keys :
    (∀ (content : Str) (req : List Str) (out : List Row),
        parseCSV content req = Except.ok out →
        ∀ r ∈ out, ∃ n, r.map Prod.fst = (parsedHeaders content).take n) ∧
    parseCSV (chars "A\nx,y,z") [] = Except.ok [[(chars "A", chars "x")]] ∧
    parseCSV (chars "A,B\nx") [] = Except.ok [[(chars "A", chars "x")]] := by
  refine ⟨?_, rfl, rfl⟩
  intro content req out hok r hr
  simp only [parseCSV] at hok
  split at hok
  · exact Except.noConfusion hok
  · split at hok
    · obtain rfl := Except.ok.inj hok
      obtain ⟨line, rfl⟩ := parseLines_shape (parsedHeaders content) _ r hr
      exact parseLineAux_keys (parsedHeaders content) line none [] false 0 [] (by simp)
    · exact Except.noConfusion hok

/-- Closed instance of C8: the keys of the parsed short row form an
initial segment of the headers. -/
theorem parseCSV_row_keys_witness :
    ∃ n, ([(chars "A", chars "x")] : Row).map Prod.fst
      = (parsedHeaders (chars "A,B\nx")).take n :=
  parseCSV_row_keys.1 (chars "A,B\nx") [] [[(chars "A", chars "x")]] rfl
    [(chars "A", chars "x")] (by decide)

theorem trim_eq_nil_iff (s : Str) : trim s = [] ↔ ∀ c ∈ s, isWSChar c = true := by
  unfold trim
  rw [List.reverse_eq_nil_iff, List.dropWhile_eq_nil_iff]
  constructor
  · intro h c hc
    by_cases hw : isWSChar c = true
    · exact hw
    · have hc2 : c ∈ s.dropWhile isWSChar := by
        have hsplit : s.takeWhile isWSChar ++ s.dropWhile isWSChar = s :=
          List.takeWhile_append_dropWhile isWSChar s
        rw [← hsplit] at hc
        rcases List.mem_append.mp hc with h2 | h2
        · exact absurd (List.mem_takeWhile_imp h2) hw
        · exact h2
      exact h c (List.mem_reverse.mpr hc2)
  · intro h x hx
    exact h x ((List.dropWhile_sublist isWSChar).subset (List.mem_reverse.mp hx))

theorem trim_ne_nil {c : Char} {s : Str} (hc : c ∈ s) (hw : isWSChar c = false) :
    trim s ≠ [] := by
  intro h
  have h2 := (trim_eq_nil_iff s).mp h c hc
  rw [hw] at h2
  exact Bool.noConfusion h2

theorem splitOn_not_mem {sep : Char} {a : Str} (h : sep ∉ a) : splitOn sep a = [a] := by
  induction a with
  | nil => rfl
  | cons c rest ih =>
    have hc : c ≠ sep := fun hh => h (hh ▸ List.mem_cons_self _ _)
    simp only [splitOn]
    rw [if_neg hc, ih (fun hh => h (List.mem_cons_of_mem _ hh))]

theorem splitOn_append {sep : Char} {a b : Str} (h : sep ∉ a) :
    splitOn sep (a ++ sep :: b) = a :: splitOn sep b := by
  induction a with
  | nil => simp [splitOn]
  | cons c rest ih =>
    have hc : c ≠ sep := fun hh => h (hh ▸ List.mem_cons_self _ _)
    have ih2 := ih (fun hh => h (List.mem_cons_of_mem _ hh))
    simp only [List.cons_append, splitOn]
    rw [if_neg hc]
    simp only [List.append_eq] at ih2 ⊢
    rw [ih2]

theorem mem_joinComma {x : Char} {v : Str} {vs : List Str} (hx : x ∈ v) (hv : v ∈ vs) :
    x ∈ joinComma vs := by
  induction vs with
  | nil => simp at hv
  | cons w ws ih =>
    cases ws with
    | nil =>
      rw [List.mem_singleton] at hv
      subst hv
      simpa [joinComma] using hx
    | cons w2 ws2 =>
      show x ∈ w ++ ',' :: joinComma (w2 :: ws2)
      rcases List.mem_cons.mp hv with rfl | hv2
      · exact List.mem_append.mpr (Or.inl hx)
      · exact List.mem_append.mpr (Or.inr (List.mem_cons_of_mem _ (ih hv2)))

theorem mem_joinComma_inv {x : Char} {vs : List Str} (h : x ∈ joinComma vs) :
    x = ',' ∨ ∃ v ∈ vs, x ∈ v := by
  induction vs with
  | nil => simp [joinComma] at h
  | cons w ws ih =>
    cases ws with
    | nil =>
      right
      exact ⟨w, List.mem_singleton_self _, by simpa [joinComma] using h⟩
    | cons w2 ws2 =>
      replace h : x ∈ w ++ ',' :: joinComma (w2 :: ws2) := h
      rcases List.mem_append.mp h with h2 | h2
      · exact Or.inr ⟨w, List.mem_cons_self _ _, h2⟩
      · rcases List.mem_cons.mp h2 with rfl | h3
        · exact Or.inl rfl
        · rcases ih h3 with h4 | ⟨v, hv, hxv⟩
          · exact Or.inl h4
          · exact Or.inr ⟨v, List.mem_cons_of_mem _ hv, hxv⟩

theorem comma_mem_joinComma {vs : List Str} (h : 2 ≤ vs.length) : ',' ∈ joinComma vs := by
  cases vs with
  | nil => simp at h
  | cons a ws =>
    cases ws with
    | nil => simp at h
    | cons b t =>
      show ',' ∈ a ++ ',' :: joinComma (b :: t)
      exact List.mem_append.mpr (Or.inr (List.mem_cons_self _ _))

theorem splitOn_comma_joinComma {H : List Str} (hne : H ≠ [])
    (h : ∀ v ∈ H, ',' ∉ v) : splitOn ',' (joinComma H) = H := by
  induction H with
  | nil => exact absurd rfl hne
  | cons v vs ih =>
    cases vs with
    | nil => exact splitOn_not_mem (h v (List.mem_cons_self _ _))
    | cons w t =>
      show splitOn ',' (v ++ ',' :: joinComma (w :: t)) = v :: w :: t
      rw [splitOn_append (h v (List.mem_cons_self _ _))]
      rw [ih (by simp) (fun u hu => h u (List.mem_cons_of_mem _ hu))]

theorem doubleQuotes_no_dq {v : Str} (h : dq ∉ v) : doubleQuotes v = v := by
  induction v with
  | nil => rfl
  | cons c rest ih =>
    have hc : c ≠ dq := fun hh => h (hh ▸ List.mem_cons_self _ _)
    simp only [doubleQuotes]
    rw [if_neg hc, ih (fun hh => h (List.mem_cons_of_mem _ hh))]

theorem replaceDD_no_dq : ∀ (v : Str), dq ∉ v → replaceDD v = v
  | [], _ => rfl
  | [c], _ => rfl
  | c1 :: c2 :: rest, h => by
    have h1 : c1 ≠ dq := fun hh => h (hh ▸ List.mem_cons_self _ _)
    simp only [replaceDD]
    rw [if_neg (fun hand => h1 hand.1)]
    rw [replaceDD_no_dq (c2 :: rest) (fun hh => h (List.mem_cons_of_mem _ hh))]

theorem escapeField_plain {v : Str} (hc : ',' ∉ v) (hq : dq ∉ v) : escapeField v = v := by
  unfold escapeField
  rw [if_neg]
  rintro (h | h)
  exacts [hc h, hq h]

theorem escapeField_quoted {v : Str} (hc : ',' ∈ v) (hq : dq ∉ v) :
    escapeField v = dq :: (v ++ [dq]) := by
  unfold escapeField
  rw [if_pos (Or.inl hc), doubleQuotes_no_dq hq]

theorem mem_doubleQuotes_inv {c : Char} {v : Str} :
    c ∈ doubleQuotes v → c = dq ∨ c ∈ v := by
  induction v with
  | nil => intro h; simp [doubleQuotes] at h
  | cons a rest ih =>
    intro h
    simp only [doubleQuotes] at h
    split at h
    · rcases List.mem_cons.mp h with rfl | h2
      · exact Or.inl rfl
      · rcases List.mem_cons.mp h2 with rfl | h3
        · exact Or.inl rfl
        · rcases ih h3 with h4 | h4
          · exact Or.inl h4
          · exact Or.inr (List.mem_cons_of_mem _ h4)
    · rcases List.mem_cons.mp h with rfl | h2
      · exact Or.inr (List.mem_cons_self _ _)
      · rcases ih h2 with h4 | h4
        · exact Or.inl h4
        · exact Or.inr (List.mem_cons_of_mem _ h4)

theorem mem_escapeField_inv {c : Char} {v : Str} (h : c ∈ escapeField v) :
    c = dq ∨ c ∈ v := by
  unfold escapeField at h
  split at h
  · rcases List.mem_cons.mp h with rfl | h2
    · exact Or.inl rfl
    · rcases List.mem_append.mp h2 with h3 | h3
      · exact mem_doubleQuotes_inv h3
      · exact Or.inl (by simpa using h3)
  · exact Or.inr h

theorem escapeField_has_nonws {v : Str} (h : ∃ c ∈ v, isWSChar c = false) :
    ∃ c ∈ escapeField v, isWSChar c = false := by
  unfold escapeField
  split
  · exact ⟨dq, List.mem_cons_self _ _, by decide⟩
  · exact h

theorem lookupField_cons {q : Str × Str} {r : Row} {h : Str} :
    lookupField (q :: r) h = if q.1 = h then q.2 else lookupField r h := by
  by_cases hqh : q.1 = h
  · simp [lookupField, List.find?, hqh]
  · simp [lookupField, List.find?, hqh]

theorem map_lookupField {r : Row} {H : List Str} (hk : r.map Prod.fst = H) (hnd : H.Nodup) :
    H.map (fun h => lookupField r h) = r.map Prod.snd := by
  induction r generalizing H with
  | nil => subst hk; rfl
  | cons p r2 ih =>
    subst hk
    simp only [List.map_cons] at hnd ⊢
    rw [List.nodup_cons] at hnd
    obtain ⟨hnotin, hnd2⟩ := hnd
    congr 1
    · rw [lookupField_cons, if_pos rfl]
    · have hcongr : ∀ h2 ∈ r2.map Prod.fst, lookupField (p :: r2) h2 = lookupField r2 h2 := by
        intro h2 hh2
        have hne : p.1 ≠ h2 := fun hh => hnotin (hh ▸ hh2)
        rw [lookupField_cons, if_neg hne]
      rw [List.map_congr_left hcongr]
      exact ih rfl hnd2

theorem lookupField_of_mem {r : Row} {p : Str × Str} (hnd : (r.map Prod.fst).Nodup)
    (hp : p ∈ r) : lookupField r p.1 = p.2 := by
  induction r with
  | nil => simp at hp
  | cons q r2 ih =>
    rcases List.mem_cons.mp hp with rfl | hp2
    · rw [lookupField_cons, if_pos rfl]
    · rw [List.map_cons, List.nodup_cons] at hnd
      obtain ⟨hq, hnd2⟩ := hnd
      have hne : q.1 ≠ p.1 := fun hh => hq (hh ▸ List.mem_map_of_mem _ hp2)
      rw [lookupField_cons, if_neg hne]
      exact ih hnd2 hp2

theorem zip_fst_snd : ∀ (r : Row), (r.map Prod.fst).zip (r.map Prod.snd) = r
  | [] => rfl
  | p :: r2 => by
    simp only [List.map_cons, List.zip_cons_cons, zip_fst_snd r2]

theorem prevAfter_eq : ∀ (v : Str) (p : Option Char),
    prevAfter v p = match v.getLast? with
      | some c => some c
      | none => p
  | [], _ => rfl
  | [c], _ => by simp [prevAfter]
  | c :: d :: rest, p => by
    show prevAfter (d :: rest) (some c) = _
    rw [prevAfter_eq (d :: rest) (some c), List.getLast?_cons_cons]
    cases h2 : (d :: rest).getLast? with
    | some e => rfl
    | none => exact absurd (List.getLast?_eq_none_iff.mp h2) (List.cons_ne_nil _ _)

theorem prevAfter_ne_bs {v : Str} {p : Option Char} (hp : p ≠ some bs)
    (hv : v.getLast? ≠ some bs) : prevAfter v p ≠ some bs := by
  rw [prevAfter_eq]
  cases h : v.getLast? with
  | some c => rw [h] at hv; exact hv
  | none => exact hp

theorem parse_consume (H : List Str) :
    ∀ (v rest : Str) (prev : Option Char) (fv : Str) (iq : Bool) (k : Nat) (row : Row),
      (∀ c ∈ v, c ≠ dq) → (iq = true ∨ ∀ c ∈ v, c ≠ ',') →
      parseLineAux H (v ++ rest) prev fv iq k row
        = parseLineAux H rest (prevAfter v prev) (fv ++ v) iq k row := by
  intro v
  induction v with
  | nil =>
    intro rest prev fv iq k row _ _
    simp [prevAfter]
  | cons c v2 ih =>
    intro rest prev fv iq k row hdq hcm
    have hc : c ≠ dq := hdq c (List.mem_cons_self _ _)
    show parseLineAux H (c :: (v2 ++ rest)) prev fv iq k row = _
    simp only [parseLineAux]
    rw [if_neg (fun hand => hc hand.1)]
    have hcomma : ¬(c = ',' ∧ iq = false) := by
      rcases hcm with rfl | hcm2
      · rintro ⟨-, hfalse⟩
        exact Bool.noConfusion hfalse
      · rintro ⟨rfl, -⟩
        exact hcm2 ',' (List.mem_cons_self _ _) rfl
    rw [if_neg hcomma]
    rw [ih rest (some c) (fv ++ [c]) iq k row
      (fun x hx => hdq x (List.mem_cons_of_mem _ hx))
      (hcm.imp id (fun hh x hx => hh x (List.mem_cons_of_mem _ hx)))]
    rw [show prevAfter (c :: v2) prev = prevAfter v2 (some c) from rfl]
    rw [← List.append_cons]

theorem parse_consume_quoted (H : List Str) (v rest : Str) (prev : Option Char)
    (fv : Str) (k : Nat) (row : Row)
    (hprev : prev ≠ some bs) (hdq : dq ∉ v) (hlast : v.getLast? ≠ some bs) :
    parseLineAux H ((dq :: (v ++ [dq])) ++ rest) prev fv false k row
      = parseLineAux H rest (some dq) (fv ++ v) false k row := by
  have h1 : (dq :: (v ++ [dq])) ++ rest = dq :: (v ++ (dq :: rest)) := by simp
  rw [h1]
  simp only [parseLineAux]
  rw [if_pos (by refine ⟨?_, hprev⟩; trivial)]
  simp only [Bool.not_false]
  rw [parse_consume H v (dq :: rest) (some dq) fv true k row
    (fun c hc hh => hdq (hh ▸ hc)) (Or.inl rfl)]
  simp only [parseLineAux]
  rw [if_pos (by refine ⟨?_, prevAfter_ne_bs (by decide) hlast⟩; trivial)]
  simp only [Bool.not_true]

theorem parse_consume_field (H : List Str) (v rest : Str) (prev : Option Char)
    (k : Nat) (row : Row) (hprev : prev ≠ some bs) (hv : goodField v) :
    ∃ p2, parseLineAux H (escapeField v ++ rest) prev [] false k row
      = parseLineAux H rest p2 v false k row := by
  obtain ⟨hdq, hnl, hbs⟩ := hv
  by_cases hc : ',' ∈ v
  · refine ⟨some dq, ?_⟩
    rw [escapeField_quoted hc hdq]
    have hstep := parse_consume_quoted H v rest prev [] k row hprev hdq (hbs hc)
    simpa using hstep
  · refine ⟨prevAfter v prev, ?_⟩
    rw [escapeField_plain hc hdq]
    have hstep := parse_consume H v rest prev [] false k row
      (fun c hcc hh => hdq (hh ▸ hcc)) (Or.inr (fun c hcc hh => hc (hh ▸ hcc)))
    simpa using hstep

theorem parse_serialized_fields (H : List Str) :
    ∀ (vs : List Str) (k : Nat) (row : Row) (prev : Option Char),
      prev ≠ some bs → (∀ v ∈ vs, goodField v) → k + vs.length = H.length →
      parseLineAux H (joinComma (vs.map escapeField)) prev [] false k row
        = row ++ (H.drop k).zip vs := by
  intro vs
  induction vs with
  | nil =>
    intro k row prev hprev hgood hlen
    simp only [List.length_nil] at hlen
    simp only [List.map_nil, joinComma, parseLineAux]
    rw [dif_neg (by omega)]
    rw [List.drop_eq_nil_of_le (by omega)]
    simp
  | cons v vs2 ih =>
    intro k row prev hprev hgood hlen
    have hkH : k < H.length := by
      simp only [List.length_cons] at hlen
      omega
    have hvgood : goodField v := hgood v (List.mem_cons_self _ _)
    cases vs2 with
    | nil =>
      simp only [List.map_cons, List.map_nil]
      have hjc : joinComma [escapeField v] = escapeField v ++ [] := by simp [joinComma]
      rw [hjc]
      obtain ⟨p2, hstep⟩ := parse_consume_field H v [] prev k row hprev hvgood
      rw [hstep]
      simp only [parseLineAux]
      rw [dif_pos hkH]
      rw [replaceDD_no_dq v hvgood.1]
      rw [List.drop_eq_getElem_cons hkH]
      simp only [List.zip_cons_cons, List.zip_nil_right, List.get_eq_getElem]
    | cons w t =>
      simp only [List.map_cons]
      have hjc : joinComma (escapeField v :: escapeField w :: t.map escapeField)
          = escapeField v ++ (',' :: joinComma (escapeField w :: t.map escapeField)) := rfl
      rw [hjc]
      obtain ⟨p2, hstep⟩ := parse_consume_field H v
        (',' :: joinComma (escapeField w :: t.map escapeField)) prev k row hprev hvgood
      rw [hstep]
      simp only [parseLineAux]
      rw [if_neg (by rintro ⟨h1, -⟩; exact absurd h1 (by decide))]
      rw [if_pos (by refine ⟨?_, ?_⟩ <;> trivial)]
      rw [dif_pos hkH]
      rw [replaceDD_no_dq v hvgood.1]
      have hmap : (List.map escapeField (w :: t)) = escapeField w :: t.map escapeField := rfl
      rw [← hmap]
      rw [ih (k + 1) (row ++ [(H.get ⟨k, hkH⟩, v)]) (some ',') (by decide)
        (fun u hu => hgood u (List.mem_cons_of_mem _ hu))
        (by simp only [List.length_cons] at hlen ⊢; omega)]
      rw [List.drop_eq_getElem_cons hkH]
      simp only [List.zip_cons_cons, List.get_eq_getElem, List.append_assoc,
        List.cons_append, List.nil_append]

theorem parse_serialized_row (H : List Str) (r : Row) (hnd : H.Nodup)
    (hkeys : r.map Prod.fst = H) (hvals : ∀ p ∈ r, goodField p.2) :
    parseLineAux H (serializeRow H r) none [] false 0 [] = r := by
  unfold serializeRow
  have hmap : H.map (fun h => escapeField (lookupField r h))
      = (r.map Prod.snd).map escapeField := by
    rw [← map_lookupField hkeys hnd, List.map_map]
    rfl
  rw [hmap]
  rw [parse_serialized_fields H (r.map Prod.snd) 0 [] none (by simp)
    (fun v hv => by
      obtain ⟨p, hp, rfl⟩ := List.mem_map.mp hv
      exact hvals p hp)
    (by simp [← hkeys])]
  simp only [List.drop_zero, List.nil_append]
  rw [← hkeys]
  exact zip_fst_snd r

theorem nl_not_mem_serializeRow (H : List Str) (r : Row)
    (hvals : ∀ p ∈ r, goodField p.2) : nl ∉ serializeRow H r := by
  intro hmem
  unfold serializeRow at hmem
  rcases mem_joinComma_inv hmem with h | ⟨v, hv, hnlv⟩
  · exact absurd h (by decide)
  · rcases List.mem_map.mp hv with ⟨h2, hh2, rfl⟩
    rcases mem_escapeField_inv hnlv with h3 | h3
    · exact absurd h3 (by decide)
    · rcases hlook : r.find? (fun p => decide (p.1 = h2)) with _ | p
      · rw [show lookupField r h2 = [] from by simp [lookupField, hlook]] at h3
        simp at h3
      · have hpr : p ∈ r := List.mem_of_find?_eq_some hlook
        rw [show lookupField r h2 = p.2 from by simp [lookupField, hlook]] at h3
        exact absurd h3 (hvals p hpr).2.1

theorem serializeRow_not_blank (H : List Str) (r : Row)
    (hkeys : r.map Prod.fst = H) (hnd : H.Nodup)
    (hb : 2 ≤ H.length ∨ ∃ p ∈ r, trim p.2 ≠ []) :
    trim (serializeRow H r) ≠ [] := by
  rcases hb with hb | ⟨p, hp, hptrim⟩
  · have hcm : ',' ∈ serializeRow H r := by
      unfold serializeRow
      apply comma_mem_joinComma
      simpa using hb
    exact trim_ne_nil hcm (by decide)
  · have hex : ∃ c ∈ p.2, isWSChar c = false := by
      by_contra hno
      push_neg at hno
      apply hptrim
      rw [trim_eq_nil_iff]
      intro c hc
      have hcc := hno c hc
      simpa using hcc
    have hnd2 : (r.map Prod.fst).Nodup := by rw [hkeys]; exact hnd
    have hlook := lookupField_of_mem hnd2 hp
    have hesc : ∃ c ∈ escapeField (lookupField r p.1), isWSChar c = false := by
      apply escapeField_has_nonws
      rw [hlook]
      exact hex
    obtain ⟨c, hc, hcw⟩ := hesc
    have hmemElt : escapeField (lookupField r p.1)
        ∈ H.map (fun h => escapeField (lookupField r h)) := by
      apply List.mem_map_of_mem
      rw [← hkeys]
      exact List.mem_map_of_mem _ hp
    exact trim_ne_nil (mem_joinComma hc hmemElt) hcw

theorem parseLines_serialized (H : List Str) (R : List Row) (hnd : H.Nodup)
    (hR : ∀ r ∈ R, r.map Prod.fst = H ∧ ∀ p ∈ r, goodField p.2)
    (hblank : ∀ r ∈ R, trim (serializeRow H r) ≠ []) :
    parseLines H (R.map (serializeRow H) ++ [[]]) = R := by
  induction R with
  | nil => rfl
  | cons r R2 ih =>
    show parseLines H ((serializeRow H r) :: (R2.map (serializeRow H) ++ [[]])) = r :: R2
    simp only [parseLines]
    rw [if_neg (hblank r (List.mem_cons_self _ _))]
    rw [parse_serialized_row H r hnd (hR r (List.mem_cons_self _ _)).1
      (hR r (List.mem_cons_self _ _)).2]
    rw [ih (fun u hu => hR u (List.mem_cons_of_mem _ hu))
      (fun u hu => hblank u (List.mem_cons_of_mem _ hu))]

theorem splitOn_body (H : List Str) (R : List Row)
    (hser : ∀ r ∈ R, nl ∉ serializeRow H r) :
    splitOn nl ((R.map (fun r => serializeRow H r ++ [nl])).flatten)
      = R.map (serializeRow H) ++ [[]] := by
  induction R with
  | nil => rfl
  | cons r R2 ih =>
    simp only [List.map_cons, List.flatten_cons]
    have hassoc : (serializeRow H r ++ [nl])
          ++ (R2.map (fun r => serializeRow H r ++ [nl])).flatten
        = serializeRow H r
          ++ (nl :: (R2.map (fun r => serializeRow H r ++ [nl])).flatten) := by
      simp
    rw [hassoc, splitOn_append (hser r (List.mem_cons_self _ _))]
    rw [ih (fun u hu => hser u (List.mem_cons_of_mem _ hu))]
    simp

/-- C1 (amended): the CSV codec round-trips under the conditions the
code actually supports: headers nonempty, duplicate-free, trimmed, and
free of commas and newlines; every row binding exactly the header keys
in order; every field value free of double quotes and newlines and, when
it contains a comma, not ending in a backslash; and (to avoid the
blank-line skip) either at least two headers or some field of each row
not all whitespace.  Under these conditions parsing the serialized
document returns exactly the original rows — in particular a field value
containing a comma survives the round trip verbatim. -/
theorem csv_roundtrip (H : List Str) (R : List Row)
    (hne : H ≠ []) (hnd : H.Nodup)
    (hH : ∀ h ∈ H, trim h = h ∧ ',' ∉ h ∧ nl ∉ h)
    (hR : ∀ r ∈ R, r.map Prod.fst = H ∧ ∀ p ∈ r, goodField p.2)
    (hblank : 2 ≤ H.length ∨ ∀ r ∈ R, ∃ p ∈ r, trim p.2 ≠ []) :
    parseCSV (createCSV R H) H = Except.ok R := by
  have hnlH : nl ∉ joinComma H := by
    intro hmem
    rcases mem_joinComma_inv hmem with h | ⟨v, hv, hnlv⟩
    · exact absurd h (by decide)
    · exact absurd hnlv (hH v hv).2.2
  have hser : ∀ r ∈ R, nl ∉ serializeRow H r := fun r hr =>
    nl_not_mem_serializeRow H r (hR r hr).2
  have hlines : splitOn nl (createCSV R H)
      = joinComma H :: (R.map (serializeRow H) ++ [[]]) := by
    unfold createCSV
    have hassoc : (joinComma H ++ [nl])
          ++ (R.map (fun r => serializeRow H r ++ [nl])).flatten
        = joinComma H
          ++ (nl :: (R.map (fun r => serializeRow H r ++ [nl])).flatten) := by
      simp
    rw [hassoc, splitOn_append hnlH, splitOn_body H R hser]
  have hheaders : parsedHeaders (createCSV R H) = H := by
    unfold parsedHeaders
    rw [hlines]
    simp only [List.headD_cons]
    rw [splitOn_comma_joinComma hne (fun v hv => (hH v hv).2.1)]
    have hid : ∀ h ∈ H, trim h = id h := fun h hh => (hH h hh).1
    rw [List.map_congr_left hid, List.map_id]
  have hmissing : missingHeadersOf (createCSV R H) H = [] := by
    unfold missingHeadersOf
    rw [hheaders]
    rw [List.filter_eq_nil_iff]
    intro a ha
    simp [ha]
  have hblank2 : ∀ r ∈ R, trim (serializeRow H r) ≠ [] := by
    intro r hr
    apply serializeRow_not_blank H r (hR r hr).1 hnd
    rcases hblank with hb | hb
    · exact Or.inl hb
    · exact Or.inr (hb r hr)
  simp only [parseCSV]
  rw [hmissing, hheaders, hlines]
  rw [if_neg (by simp)]
  rw [if_pos rfl]
  simp only [List.drop_succ_cons, List.drop_zero]
  rw [parseLines_serialized H R hnd hR hblank2]

/-- Counterexample for C1 as stated: a field value containing a double
quote and no newline does not survive the round trip — the scanner drops
quote characters while toggling the quote state instead of collapsing
doubled quotes, so the serialized value a-quote-b parses back as ab. -/
theorem csv_roundtrip_quote_counterexample :
    parseCSV (createCSV [[(chars "Name", ['a', dq, 'b'])]] [chars "Name"]) [chars "Name"]
      = Except.ok [[(chars "Name", chars "ab")]] ∧
    parseCSV (createCSV [[(chars "Name", ['a', dq, 'b'])]] [chars "Name"]) [chars "Name"]
      ≠ Except.ok [[(chars "Name", ['a', dq, 'b'])]] ∧
    (['a', dq, 'b'].all (fun c => !(c == nl))) = true :=
  ⟨rfl, fun h => absurd (Except.ok.inj h) (by decide), by decide⟩

/-- Closed instance of the amended C1: a field value containing a comma
is quoted by `createCSV` and comes back verbatim through `parseCSV`. -/
theorem csv_roundtrip_witness :
    parseCSV (createCSV [[(chars "Name", chars "Smith, Jr.")]] [chars "Name"]) [chars "Name"]
      = Except.ok [[(chars "Name", chars "Smith, Jr.")]] :=
  csv_roundtrip [chars "Name"] [[(chars "Name", chars "Smith, Jr.")]]
    (by decide) (by decide) (by decide) (by decide) (Or.inr (by decide))
